import Mathlib

/-!
# Verification of the kwant tutorial transport notebooks

A shallow embedding of the two notebooks `2.2.scattering.ipynb` and
`3.3.MagnetoResistance-cheat.ipynb`.  The notebooks build tight-binding
systems with the external kwant library and post-process scattering
matrices.  All value functions written in the notebooks themselves
(Pauli matrices, `onsite`, `HedgeHog`, `Lead_Pot`, `Transport`, the
parameter sweeps, and the on-site/hopping values of `make_wire` and
`make_lead_x`) are embedded below directly from the source; behaviour of
the external scattering-matrix evaluator, which is not part of this
repository, is modelled from the spec where a claim needs it.
-/

open scoped BigOperators Matrix ComplexConjugate

noncomputable section

/-! ## Pauli matrices (notebook 3.3, cell 4) -/

/-- `s_0 = np.identity(2)`. -/
def s_0 : Matrix (Fin 2) (Fin 2) ℂ := !![1, 0; 0, 1]

/-- `s_z = np.array([[1, 0], [0, -1]])`. -/
def s_z : Matrix (Fin 2) (Fin 2) ℂ := !![1, 0; 0, -1]

/-- `s_x = np.array([[0, 1], [1, 0]])`. -/
def s_x : Matrix (Fin 2) (Fin 2) ℂ := !![0, 1; 1, 0]

/-- `s_y = np.array([[0, -1j], [1j, 0]])`. -/
def s_y : Matrix (Fin 2) (Fin 2) ℂ := !![0, -Complex.I; Complex.I, 0]

/-! ## The FNF spin-valve model (notebook 3.3, cells 4-8) -/

/-- The parameter namespace used by the spin-valve cells:
`SimpleNamespace(Exc=..., E=..., angle=...)`. -/
structure SpinValveParams where
  Exc : ℝ
  E : ℝ
  angle : ℝ

/-- The notebook-global width `W = 10`. -/
def W : ℝ := 10

/-- The on-site function of the spin-valve system (notebook 3.3, cell 4):
two exchange-split ferromagnetic strips inside a normal wire, the second
strip magnetized at relative angle `p.angle`. -/
def onsite (pos : ℝ × ℝ) (p : SpinValveParams) : Matrix (Fin 2) (Fin 2) ℂ :=
  let x := pos.1
  if W < x ∧ x < 2 * W then
    (4 : ℂ) • s_0 + (p.Exc : ℂ) • s_z
  else if 3 * W < x ∧ x < 4 * W then
    (4 : ℂ) • s_0 + ((p.Exc * Real.cos p.angle : ℝ) : ℂ) • s_z
      + ((p.Exc * Real.sin p.angle : ℝ) : ℂ) • s_x
  else
    (4 : ℂ) • s_0

/-- The on-site value of the spin-valve leads: `Hlead[...] = 4*s_0`. -/
def Hlead_onsite : Matrix (Fin 2) (Fin 2) ℂ := (4 : ℂ) • s_0

/-- The hopping value used throughout the spin-valve system and its
leads: `H[lat.neighbors()] = s_0`. -/
def Hhop : Matrix (Fin 2) (Fin 2) ℂ := s_0

/-- The spin-valve on-site map at fixed `Exc` and `E`, as a function of
the magnetization angle: the data the angle sweep feeds to the
scattering evaluator. -/
def onsiteMap (Exc E a : ℝ) : (ℝ × ℝ) → Matrix (Fin 2) (Fin 2) ℂ :=
  fun pos => onsite pos (SpinValveParams.mk Exc E a)

/-! ## The skyrmion model (notebook 3.3, cells 10-12) -/

/-- The parameter namespace of the skyrmion cells:
`SimpleNamespace(L=..., W=..., delta=..., r0=..., Ex=...)`. -/
structure SkyrmionParams where
  L : ℝ
  W : ℝ
  delta : ℝ
  r0 : ℝ
  Ex : ℝ

/-- `HedgeHog(site, ps)` (notebook 3.3, cell 10): the skyrmion on-site
matrix.  `r = (x**2+y**2)**0.5`; the unit-vector divisions `x/r`, `y/r`
are guarded by `if r != 0`, with magnetization `s_z` at the origin. -/
def HedgeHog (pos : ℝ × ℝ) (ps : SkyrmionParams) : Matrix (Fin 2) (Fin 2) ℂ :=
  let x := pos.1
  let y := pos.2
  let r := Real.sqrt (x ^ 2 + y ^ 2)
  let theta := (Real.pi / 2) * (Real.tanh ((ps.r0 - r) / ps.delta) + 1)
  let Exm :=
    if r ≠ 0 then
      ((x / r * Real.sin theta : ℝ) : ℂ) • s_x
        + ((y / r * Real.sin theta : ℝ) : ℂ) • s_y
        + ((Real.cos theta : ℝ) : ℂ) • s_z
    else s_z
  (4 : ℂ) • s_0 + (ps.Ex : ℂ) • Exm

/-- `Lead_Pot(site, ps)` (notebook 3.3, cell 10): the lead on-site value
`4*s_0 + ps.Ex * s_z`. -/
def Lead_Pot (pos : ℝ × ℝ) (ps : SkyrmionParams) : Matrix (Fin 2) (Fin 2) ℂ :=
  (4 : ℂ) • s_0 + (ps.Ex : ℂ) • s_z

/-- A division-checked variant of `HedgeHog`: every division the Python
code executes is required to have a nonzero denominator, returning
`none` if one does not.  The divisions executed are `(r0 - r)/delta`,
and, only under the guard `r != 0`, `x/r` and `y/r`. -/
def HedgeHogD (pos : ℝ × ℝ) (ps : SkyrmionParams) :
    Option (Matrix (Fin 2) (Fin 2) ℂ) :=
  let x := pos.1
  let y := pos.2
  let r := Real.sqrt (x ^ 2 + y ^ 2)
  if ps.delta = 0 then none
  else
    let theta := (Real.pi / 2) * (Real.tanh ((ps.r0 - r) / ps.delta) + 1)
    if r ≠ 0 then
      some ((4 : ℂ) • s_0 + (ps.Ex : ℂ) •
        (((x / r * Real.sin theta : ℝ) : ℂ) • s_x
          + ((y / r * Real.sin theta : ℝ) : ℂ) • s_y
          + ((Real.cos theta : ℝ) : ℂ) • s_z))
    else
      some ((4 : ℂ) • s_0 + (ps.Ex : ℂ) • s_z)

/-- `shape_2DEG` (notebook 3.3, cell 10): the cross-shaped scattering
region `(|x| < L and |y| < W) or (|x| < W and |y| < L)`. -/
def shape_2DEG (ps : SkyrmionParams) (pos : ℝ × ℝ) : Prop :=
  (|pos.1| < ps.L ∧ |pos.2| < ps.W) ∨ (|pos.1| < ps.W ∧ |pos.2| < ps.L)

/-! ## The Transport post-processing (notebook 3.3, cell 10)

`Transport(Hf, EE, ps)` reads the pairwise transmissions
`smatrix.transmission(i, j)` of the four-lead system into a matrix `G`,
replaces each diagonal entry by minus the sum of the off-diagonal
entries of its row, solves `G[:3,:3] V = [1,0,0]` and returns
`Hall = V[2] - V[1]`.  The transmissions themselves come from the
external library, so the embedding takes them as an arbitrary function
`T : Fin 4 → Fin 4 → ℝ`. -/

/-- The conductance matrix `G` built by `Transport`: after the double
loop, `G[i,j] = T i j` off the diagonal and `G[i,i]` is minus the sum
of the off-diagonal entries of row `i`. -/
def Gmat (T : Fin 4 → Fin 4 → ℝ) : Matrix (Fin 4) (Fin 4) ℝ :=
  Matrix.of fun i j =>
    if i = j then -(∑ k, if k = i then 0 else T i k) else T i j

/-- The reduced conductance matrix `G[:3,:3]`. -/
def G3 (T : Fin 4 → Fin 4 → ℝ) : Matrix (Fin 3) (Fin 3) ℝ :=
  (Gmat T).submatrix (Fin.castLE (by omega)) (Fin.castLE (by omega))

/-- The right-hand side `[1., 0, 0]` of the reduced linear system: unit
current injected at terminal 0, terminals 1 and 2 carrying no current,
terminal 3 (the eliminated row/column) grounded. -/
def bvec : Fin 3 → ℝ := ![1, 0, 0]

/-- The voltage vector `V = np.linalg.solve(G[:3,:3], [1.,0,0])` in the
nonsingular case. -/
def solveV (T : Fin 4 → Fin 4 → ℝ) : Fin 3 → ℝ :=
  (G3 T)⁻¹.mulVec bvec

/-- `Hall = V[2] - V[1]`. -/
def Hall (T : Fin 4 → Fin 4 → ℝ) : ℝ :=
  solveV T 2 - solveV T 1

open Classical in
/-- `np.linalg.solve`: returns the unique solution of `A x = b` when
`A` is nonsingular and raises `LinAlgError` (modelled as `none`)
otherwise. -/
def solveLin (A : Matrix (Fin 3) (Fin 3) ℝ) (b : Fin 3 → ℝ) :
    Option (Fin 3 → ℝ) :=
  if IsUnit A.det then some (A⁻¹.mulVec b) else none

/-- `Transport` with its single call to the linear solver made explicit:
the first component is the returned pair `(G, Hall)` (`none` when the
solve raises, in which case the exception propagates and no Hall value
is produced), the second component counts how many times the linear
solver was invoked. -/
def Transport (T : Fin 4 → Fin 4 → ℝ) :
    Option (Matrix (Fin 4) (Fin 4) ℝ × ℝ) × ℕ :=
  match solveLin (G3 T) bvec with
  | some V => (some (Gmat T, V 2 - V 1), 1)
  | none => (none, 1)

/-! ## The scattering matrix of the two-terminal wire (notebook 2.2)

The scattering matrix itself is computed by the external library
(`kwant.smatrix`); the spec gives its contract: at each energy it is a
unitary block matrix whose blocks connect the channels of the attached
leads, and `transmission(i, j)` is the squared-magnitude block sum from
the channels of lead `j` to those of lead `i`. -/

/-- The lead owning scattering channel `a` of the two-terminal wire:
channels `0, ..., n₀ - 1` belong to lead 0, the remaining `n₁` channels
to lead 1 (leads are indexed in attachment order). -/
def leadOf (n₀ n₁ : ℕ) (a : Fin (n₀ + n₁)) : Fin 2 :=
  if (a : ℕ) < n₀ then 0 else 1

/-- Modelled from the spec: `smatrix.transmission(i, j)` of the external
evaluator, missing from this repository.  Per the spec's external
interface contract, the scattering matrix `S` is a unitary block matrix
of amplitudes between lead channels, and the transmission coefficient
from lead `j` to lead `i` is the sum of the squared magnitudes of the
amplitudes from the channels of lead `j` into the channels of lead
`i`. -/
def transmission (n₀ n₁ : ℕ) (S : Matrix (Fin (n₀ + n₁)) (Fin (n₀ + n₁)) ℂ)
    (i j : Fin 2) : ℝ :=
  ∑ a, ∑ b,
    if leadOf n₀ n₁ a = i ∧ leadOf n₀ n₁ b = j then Complex.normSq (S a b)
    else 0

/-! ## The uniform wire (notebook 2.2, cells 4 and 12) -/

/-- On-site value of `make_lead_x`: `syst[...] = 4 * t`. -/
def lead_onsite (t : ℝ) : ℝ := 4 * t

/-- Hopping value of `make_lead_x`: `syst[lat.neighbors()] = -t`. -/
def lead_hop (t : ℝ) : ℝ := -t

/-- On-site value of the scattering region of `make_wire`:
`sr[...] = 4 * t`. -/
def wire_onsite (t : ℝ) : ℝ := 4 * t

/-- Hopping value of the scattering region of `make_wire`:
`sr[lat.neighbors()] = -t`. -/
def wire_hop (t : ℝ) : ℝ := -t

/-- The discrete Schrödinger equation of a one-dimensional tight-binding
chain with on-site energies `eps` and hopping `-t` (the effective
longitudinal problem of one transverse mode of the wire; the transverse
mode energy is absorbed into `eps` and `E`). -/
def schrodingerEq (eps : ℤ → ℝ) (t E : ℝ) (ψ : ℤ → ℂ) : Prop :=
  ∀ x : ℤ, (eps x : ℂ) * ψ x - (t : ℂ) * ψ (x - 1) - (t : ℂ) * ψ (x + 1)
    = (E : ℂ) * ψ x

/-- Modelled from the spec: the scattering boundary condition the
external evaluator imposes for one open mode at longitudinal momentum
`k` — unit incoming amplitude from lead 0 (sites `x ≤ 0`), reflected
amplitude `r` there, and transmitted amplitude `τ` into lead 1 (sites
`x ≥ L`, beyond the scattering region of length `L`).  The reflection
and transmission coefficients of the mode are `|r|²` and `|τ|²`. -/
def scatteringBC (k : ℝ) (L : ℤ) (r τ : ℂ) (ψ : ℤ → ℂ) : Prop :=
  (∀ x : ℤ, x ≤ 0 →
    ψ x = Complex.exp (Complex.I * k * x)
      + r * Complex.exp (-(Complex.I * k * x)))
  ∧ (∀ x : ℤ, L ≤ x → ψ x = τ * Complex.exp (Complex.I * k * x))

/-- The lead's plane-wave mode at momentum `k`. -/
def planeWave (k : ℝ) : ℤ → ℂ := fun x => Complex.exp (Complex.I * k * x)

/-- The lead dispersion relation: energy of the mode at longitudinal
momentum `k` for on-site energy `4t` and hopping `-t`. -/
def bandEnergy (t k : ℝ) : ℝ := 4 * t - 2 * t * Real.cos k

open Classical in
/-- Modelled from the spec: the set of open (propagating) transverse
modes of the width-`Wn` lead at energy `E` — mode `n ∈ {1, ..., Wn}`
has transverse energy `4t - 2t cos(nπ/(Wn+1))` and is open when `E`
lies within `2t` of it (so that a real longitudinal momentum exists). -/
def openModes (Wn : ℕ) (t E : ℝ) : Finset ℕ :=
  (Finset.Icc 1 Wn).filter fun n =>
    |E - (4 * t - 2 * t * Real.cos (n * Real.pi / (Wn + 1)))| < 2 * t

/-- The number of open propagating channels of the lead at energy `E`. -/
def openChannels (Wn : ℕ) (t E : ℝ) : ℕ := (openModes Wn t E).card

/-- Modelled from the spec: the total transmission `transmission(1,0)`
of the two-terminal wire is the sum over the open transverse modes of
the per-mode transmission coefficients `modeT`. -/
def totalTransmission (Wn : ℕ) (t E : ℝ) (modeT : ℕ → ℝ) : ℝ :=
  ∑ n ∈ openModes Wn t E, modeT n

/-! ## Mirror symmetry of the four-terminal system (notebook 3.3) -/

/-- The permutation of the four leads induced by the spatial mirror
`y ↦ -y`: leads are attached in the order `x`-lead, `y`-lead, reversed
`y`-lead, reversed `x`-lead, so the mirror swaps leads 1 and 2 and
fixes leads 0 and 3. -/
def mirrorPerm : Equiv.Perm (Fin 4) := Equiv.swap 1 2

/-- The mirror permutation restricted to the three retained terminals
of the reduced system. -/
def mirrorPerm3 : Equiv.Perm (Fin 3) := Equiv.swap 1 2

/-- Modelled from the spec: the transmissions delivered by the external
scattering evaluator inherit the spatial symmetries of the Hamiltonian.
When the on-site values are spin-independent (`Ex = 0` makes `HedgeHog`
and `Lead_Pot` both `4·s_0` everywhere) the cross-shaped geometry and
its leads are invariant under the mirror `y ↦ -y`, which permutes the
leads by `mirrorPerm`; the transmissions then satisfy
`T (σ i) (σ j) = T i j`. -/
def MirrorSymmetric (T : Fin 4 → Fin 4 → ℝ) : Prop :=
  ∀ i j, T (mirrorPerm i) (mirrorPerm j) = T i j

/-! ## Gauge invariance for the angle sweep (notebook 3.3, cell 8) -/

/-- Modelled from the spec: the scattering evaluator depends on the
spin-valve system only through its on-site map (the hoppings `s_0`, the
lead on-sites `4·s_0` and the energy are fixed throughout the sweep),
and conjugating every on-site matrix by the constant unitary `s_z`
(which is Hermitian, squares to `s_0`, and commutes with the lead
on-site `4·s_0` and the hopping `s_0`) leaves every transmission
coefficient unchanged.  `F` is the map from the on-site data to the
recorded transmission `smatrix.transmission(1, 0)`. -/
def GaugeInvariant (F : ((ℝ × ℝ) → Matrix (Fin 2) (Fin 2) ℂ) → ℝ) : Prop :=
  ∀ h g : (ℝ × ℝ) → Matrix (Fin 2) (Fin 2) ℂ,
    (∀ pos, g pos = s_z * h pos * s_z) → F g = F h

/-! ## The parameter sweeps (notebook 3.3, cells 8 and 12)

Both sweeps mutate a single shared parameter namespace inside a `for`
loop (`for params.angle in angles` and `ps.delta = EE`) and append one
recorded value per iteration.  The embedding threads the mutated
namespace through a fold; the recorded value of each iteration is
produced by an arbitrary function `tf`/`hf` of the parameter namespace
(abstracting the scattering computation at the fixed finalized system
and fixed energy). -/

/-- The angle sweep of cell 8: each iteration overwrites `params.angle`
with the grid point and appends `tf params`. -/
def angleSweep (tf : SpinValveParams → ℝ) (p0 : SpinValveParams)
    (angles : List ℝ) : List ℝ :=
  (angles.foldl
    (fun st a =>
      let p := SpinValveParams.mk st.1.Exc st.1.E a
      (p, st.2 ++ [tf p]))
    (p0, ([] : List ℝ))).2

/-- The domain-width sweep of cell 12: each iteration overwrites
`ps.delta` with the grid point `EE` and appends the Hall value
`hf ps`. -/
def hallSweep (hf : SkyrmionParams → ℝ) (p0 : SkyrmionParams)
    (Es : List ℝ) : List ℝ :=
  (Es.foldl
    (fun st EE =>
      let p := SkyrmionParams.mk st.1.L st.1.W EE st.1.r0 st.1.Ex
      (p, st.2 ++ [hf p]))
    (p0, ([] : List ℝ))).2

end

/-! ## Helper lemmas -/

theorem Gmat_offdiag (T : Fin 4 → Fin 4 → ℝ) {i j : Fin 4} (h : i ≠ j) :
    Gmat T i j = T i j := by
  simp [Gmat, h]

theorem Gmat_diag (T : Fin 4 → Fin 4 → ℝ) (i : Fin 4) :
    Gmat T i i = -(∑ k, if k = i then 0 else T i k) := by
  simp [Gmat]

theorem sum_if_ne (a : Fin 4) :
    (∑ k : Fin 4, if k = a then (0 : ℝ) else 1) = 3 := by
  have h1 : (∑ k : Fin 4, if k = a then (0 : ℝ) else 1)
      = ∑ k : Fin 4, ((1 : ℝ) - if k = a then 1 else 0) :=
    Finset.sum_congr rfl fun k _ => by by_cases h : k = a <;> simp [h]
  rw [h1, Finset.sum_sub_distrib, Finset.sum_ite_eq']
  simp
  norm_num

theorem G3T1_apply (i j : Fin 3) :
    (G3 fun _ _ => (1 : ℝ)) i j = if i = j then -3 else 1 := by
  simp only [G3, Matrix.submatrix_apply, Gmat, Matrix.of_apply]
  by_cases h : i = j
  · simp [h, sum_if_ne]
  · have h2 : Fin.castLE (by omega : 3 ≤ 4) i
        ≠ Fin.castLE (by omega : 3 ≤ 4) j := by
      simpa [Fin.castLE_inj] using h
    simp [h, h2]

theorem detGT1 : (G3 fun _ _ => (1 : ℝ)).det = -16 := by
  rw [Matrix.det_fin_three]
  simp [G3T1_apply]
  norm_num

theorem detGT1_isUnit : IsUnit (G3 fun _ _ => (1 : ℝ)).det := by
  rw [detGT1]
  exact isUnit_iff_ne_zero.mpr (by norm_num)

/-! ## Claims about `Transport` -/

/-- C1: for every 4-lead transmission table, the matrix `G` built by
`Transport` has `G[i,j]` equal to the transmission from lead `j` to
lead `i` off the diagonal, each diagonal entry equal to the negated sum
of the off-diagonal entries of its row, and hence every row of `G` sums
to zero. -/
theorem transport_conductance_matrix (T : Fin 4 → Fin 4 → ℝ) :
    (∀ i j, i ≠ j → Gmat T i j = T i j) ∧
    (∀ i, Gmat T i i = -(∑ j, if j = i then 0 else Gmat T i j)) ∧
    (∀ i, ∑ j, Gmat T i j = 0) := by
  refine ⟨fun i j h => Gmat_offdiag T h, fun i => ?_, fun i => ?_⟩
  · rw [Gmat_diag]
    congr 1
    refine Finset.sum_congr rfl fun j _ => ?_
    by_cases hji : j = i
    · simp [hji]
    · simp [hji, Gmat_offdiag T (Ne.symm hji)]
  · fin_cases i <;>
      simp [Gmat, Fin.sum_univ_four] <;> ring

/-- Witness for C1 at a concrete transmission table. -/
theorem transport_conductance_matrix_witness :
    Gmat (fun _ _ => 1) 0 1 = (fun _ _ => (1 : ℝ)) 0 1 ∧
    (∑ j, Gmat (fun _ _ => (1 : ℝ)) 0 j) = 0 :=
  ⟨(transport_conductance_matrix fun _ _ => 1).1 0 1 (by decide),
   (transport_conductance_matrix fun _ _ => 1).2.2 0⟩

theorem solveV_solves (T : Fin 4 → Fin 4 → ℝ) (hdet : IsUnit (G3 T).det) :
    (G3 T).mulVec (solveV T) = bvec := by
  unfold solveV
  rw [Matrix.mulVec_mulVec, Matrix.mul_nonsing_inv _ hdet, Matrix.one_mulVec]

/-- C2: when the reduced matrix `G[:3,:3]` is nonsingular, the vector
computed by `Transport` solves `G[:3,:3] ⬝ V = [1, 0, 0]` (unit current
injected at terminal 0, terminal 3 grounded as reference), and the
returned Hall resistance is `V[2] - V[1]`. -/
theorem transport_reduced_solve (T : Fin 4 → Fin 4 → ℝ)
    (hdet : IsUnit (G3 T).det) :
    (G3 T).mulVec (solveV T) = bvec ∧ Hall T = solveV T 2 - solveV T 1 :=
  ⟨solveV_solves T hdet, rfl⟩

/-- Witness for C2 at a concrete nonsingular transmission table. -/
theorem transport_reduced_solve_witness :
    (G3 fun _ _ => (1 : ℝ)).mulVec (solveV fun _ _ => 1) = bvec ∧
    Hall (fun _ _ => 1)
      = solveV (fun _ _ => 1) 2 - solveV (fun _ _ => 1) 1 :=
  transport_reduced_solve (fun _ _ => 1) detGT1_isUnit

/-- C7: `Transport` calls the linear solver exactly once for every
input; it returns no Hall value exactly when the reduced matrix is
singular (the solver raises), and on a nonsingular reduced matrix it
returns the pair `(G, Hall)` of that single solve. -/
theorem transport_single_solve (T : Fin 4 → Fin 4 → ℝ) :
    (Transport T).2 = 1 ∧
    ((Transport T).1 = none ↔ ¬ IsUnit (G3 T).det) ∧
    (IsUnit (G3 T).det → (Transport T).1 = some (Gmat T, Hall T)) := by
  have hiff : IsUnit (G3 T).det ↔ (G3 T).det ≠ 0 := isUnit_iff_ne_zero
  by_cases h : IsUnit (G3 T).det
  · have h0 : (G3 T).det ≠ 0 := hiff.mp h
    refine ⟨?_, ?_, ?_⟩ <;>
      simp [Transport, solveLin, h, h0, Hall, solveV]
  · have h0 : (G3 T).det = 0 := by
      rw [hiff] at h
      simpa using h
    refine ⟨?_, ?_, ?_⟩ <;>
      simp [Transport, solveLin, h, h0]

/-- Witness for C7 at a concrete nonsingular transmission table. -/
theorem transport_single_solve_witness :
    (Transport fun _ _ => (1 : ℝ)).2 = 1 ∧
    (Transport fun _ _ => (1 : ℝ)).1
      = some (Gmat fun _ _ => 1, Hall fun _ _ => 1) :=
  ⟨(transport_single_solve fun _ _ => 1).1,
   (transport_single_solve fun _ _ => 1).2.2 detGT1_isUnit⟩

/-! ## Hermiticity of the on-site matrices -/

theorem s_0_hermitian : s_0.IsHermitian := by
  ext i j
  fin_cases i <;> fin_cases j <;>
    simp [s_0, Matrix.conjTranspose_apply]

theorem s_x_hermitian : s_x.IsHermitian := by
  ext i j
  fin_cases i <;> fin_cases j <;>
    simp [s_x, Matrix.conjTranspose_apply]

theorem s_y_hermitian : s_y.IsHermitian := by
  ext i j
  fin_cases i <;> fin_cases j <;>
    simp [s_y, Matrix.conjTranspose_apply]

theorem s_z_hermitian : s_z.IsHermitian := by
  ext i j
  fin_cases i <;> fin_cases j <;>
    simp [s_z, Matrix.conjTranspose_apply]

theorem realSmul_hermitian (c : ℝ) {M : Matrix (Fin 2) (Fin 2) ℂ}
    (h : M.IsHermitian) : ((c : ℂ) • M).IsHermitian := by
  unfold Matrix.IsHermitian at h ⊢
  rw [Matrix.conjTranspose_smul, h, Complex.star_def, Complex.conj_ofReal]

theorem fourS0_hermitian : ((4 : ℂ) • s_0).IsHermitian := by
  have h4 : (4 : ℂ) = ((4 : ℝ) : ℂ) := by norm_num
  rw [h4]
  exact realSmul_hermitian 4 s_0_hermitian

/-- C10: every on-site value function of notebook 3.3 — `onsite` of the
spin valve, `HedgeHog` and `Lead_Pot` of the skyrmion model — returns a
Hermitian 2×2 matrix at every site and every real parameter set, being
a real-coefficient combination of the Hermitian matrices
`s_0, s_x, s_y, s_z`. -/
theorem onsite_matrices_hermitian (pos : ℝ × ℝ) (p : SpinValveParams)
    (ps : SkyrmionParams) :
    (onsite pos p).IsHermitian ∧ (HedgeHog pos ps).IsHermitian ∧
    (Lead_Pot pos ps).IsHermitian := by
  refine ⟨?_, ?_, ?_⟩
  · simp only [onsite]
    split_ifs
    · exact fourS0_hermitian.add (realSmul_hermitian _ s_z_hermitian)
    · exact (fourS0_hermitian.add
        (realSmul_hermitian _ s_z_hermitian)).add
        (realSmul_hermitian _ s_x_hermitian)
    · exact fourS0_hermitian
  · simp only [HedgeHog]
    split_ifs
    · exact fourS0_hermitian.add (realSmul_hermitian _
        (((realSmul_hermitian _ s_x_hermitian).add
          (realSmul_hermitian _ s_y_hermitian)).add
          (realSmul_hermitian _ s_z_hermitian)))
    · exact fourS0_hermitian.add (realSmul_hermitian _ s_z_hermitian)
  · exact fourS0_hermitian.add (realSmul_hermitian _ s_z_hermitian)

/-- C9: `HedgeHog` is total — with `delta ≠ 0` the division-checked
variant agrees with it everywhere (no division by zero is executed:
`x/r` and `y/r` run only under the guard `r != 0`), and at the origin,
where `r = 0`, the magnetization falls back to `s_z`, so the returned
value is `4·s_0 + Ex·s_z`. -/
theorem hedgehog_total (pos : ℝ × ℝ) (ps : SkyrmionParams)
    (hδ : ps.delta ≠ 0) :
    HedgeHogD pos ps = some (HedgeHog pos ps) ∧
    HedgeHog (0, 0) ps = (4 : ℂ) • s_0 + (ps.Ex : ℂ) • s_z := by
  constructor
  · simp only [HedgeHog, HedgeHogD, if_neg hδ]
    split_ifs <;> rfl
  · have h0 : Real.sqrt ((0 : ℝ) ^ 2 + (0 : ℝ) ^ 2) = 0 := by
      norm_num
    simp only [HedgeHog, h0]
    simp

/-! ## Unitarity of the scattering matrix (claim C3) -/

/-- C3: for a unitary scattering matrix of the two-terminal wire, the
reflection `transmission(0,0)` plus the transmission `transmission(1,0)`
— the two quantities accumulated by `plot_transmission` at each energy —
equals the number `n₀` of incoming propagating channels of lead 0
(current conservation). -/
theorem transmission_unitarity (n₀ n₁ : ℕ)
    (S : Matrix (Fin (n₀ + n₁)) (Fin (n₀ + n₁)) ℂ)
    (hU : star S * S = 1) :
    transmission n₀ n₁ S 0 0 + transmission n₀ n₁ S 1 0 = n₀ := by
  have hcol : ∀ b, (∑ a, Complex.normSq (S a b)) = (1 : ℝ) := by
    intro b
    have h1 : (star S * S) b b = 1 := by rw [hU]; simp [Matrix.one_apply]
    rw [Matrix.mul_apply] at h1
    have h2 : ∀ a, (star S) b a * S a b = (Complex.normSq (S a b) : ℂ) := by
      intro a
      rw [Matrix.star_apply, Complex.star_def, Complex.normSq_eq_conj_mul_self]
    rw [Finset.sum_congr rfl fun a _ => h2 a] at h1
    have h3 : ((∑ a, Complex.normSq (S a b) : ℝ) : ℂ) = ((1 : ℝ) : ℂ) := by
      push_cast
      rw [h1]
    exact_mod_cast h3
  have hsplit : transmission n₀ n₁ S 0 0 + transmission n₀ n₁ S 1 0
      = ∑ a, ∑ b, if leadOf n₀ n₁ b = 0 then Complex.normSq (S a b) else 0 := by
    unfold transmission
    rw [← Finset.sum_add_distrib]
    refine Finset.sum_congr rfl fun a _ => ?_
    rw [← Finset.sum_add_distrib]
    refine Finset.sum_congr rfl fun b _ => ?_
    by_cases ha : (a : ℕ) < n₀ <;> by_cases hb : (b : ℕ) < n₀ <;>
      simp [leadOf, ha, hb]
  rw [hsplit, Finset.sum_comm]
  have hpull : ∀ b,
      (∑ a, if leadOf n₀ n₁ b = 0 then Complex.normSq (S a b) else 0)
      = if leadOf n₀ n₁ b = 0 then (1 : ℝ) else 0 := by
    intro b
    by_cases hb : leadOf n₀ n₁ b = 0 <;> simp [hb, hcol]
  rw [Finset.sum_congr rfl fun b _ => hpull b]
  rw [Fin.sum_univ_add (fun b => if leadOf n₀ n₁ b = 0 then (1 : ℝ) else 0)]
  have hc : ∀ i : Fin n₀, leadOf n₀ n₁ (Fin.castAdd n₁ i) = 0 := by
    intro i
    simp [leadOf, i.isLt]
  have hn : ∀ i : Fin n₁, leadOf n₀ n₁ (Fin.natAdd n₀ i) ≠ 0 := by
    intro i
    simp [leadOf]
  rw [Finset.sum_congr rfl fun i _ => if_pos (hc i),
      Finset.sum_congr rfl fun i _ => if_neg (hn i)]
  simp

/-- Witness for C3: the identity scattering matrix on one channel per
lead (total reflection) conserves current. -/
theorem transmission_unitarity_witness :
    transmission 1 1 (1 : Matrix (Fin (1 + 1)) (Fin (1 + 1)) ℂ) 0 0
      + transmission 1 1 (1 : Matrix (Fin (1 + 1)) (Fin (1 + 1)) ℂ) 1 0
      = ((1 : ℕ) : ℝ) :=
  transmission_unitarity 1 1 1 (by simp)

/-! ## Statelessness of the parameter sweeps (claim C8) -/

theorem angleSweep_foldl (tf : SpinValveParams → ℝ) (p0 : SpinValveParams)
    (angles : List ℝ) :
    ∀ (q : SpinValveParams) (acc : List ℝ), q.Exc = p0.Exc → q.E = p0.E →
      (angles.foldl
        (fun st a =>
          let p := SpinValveParams.mk st.1.Exc st.1.E a
          (p, st.2 ++ [tf p]))
        (q, acc)).2
      = acc ++ angles.map fun a => tf (SpinValveParams.mk p0.Exc p0.E a) := by
  induction angles with
  | nil => intro q acc _ _; simp
  | cons a as ih =>
    intro q acc hExc hE
    simp only [List.foldl_cons, List.map_cons]
    rw [ih (SpinValveParams.mk q.Exc q.E a) (acc ++ [tf (SpinValveParams.mk q.Exc q.E a)]) hExc hE]
    rw [hExc, hE]
    simp

theorem hallSweep_foldl (hf : SkyrmionParams → ℝ) (q0 : SkyrmionParams)
    (Es : List ℝ) :
    ∀ (q : SkyrmionParams) (acc : List ℝ),
      q.L = q0.L → q.W = q0.W → q.r0 = q0.r0 → q.Ex = q0.Ex →
      (Es.foldl
        (fun st EE =>
          let p := SkyrmionParams.mk st.1.L st.1.W EE st.1.r0 st.1.Ex
          (p, st.2 ++ [hf p]))
        (q, acc)).2
      = acc ++ Es.map fun EE => hf (SkyrmionParams.mk q0.L q0.W EE q0.r0 q0.Ex) := by
  induction Es with
  | nil => intro q acc _ _ _ _; simp
  | cons e es ih =>
    intro q acc hL hW hr0 hEx
    simp only [List.foldl_cons, List.map_cons]
    rw [ih (SkyrmionParams.mk q.L q.W e q.r0 q.Ex)
      (acc ++ [hf (SkyrmionParams.mk q.L q.W e q.r0 q.Ex)]) hL hW hr0 hEx]
    rw [hL, hW, hr0, hEx]
    simp

/-- C8: each sweep point is an independent, stateless computation: the
recorded list of both sweeps equals the pointwise map of a pure function
of (fixed system/energy and) that point's parameter value over the grid
— the in-loop mutation of the shared namespace never leaks between
iterations — so reordering the grid merely permutes the recorded
values, and any single point run in isolation yields the same value. -/
theorem sweeps_stateless (tf : SpinValveParams → ℝ) (hf : SkyrmionParams → ℝ)
    (p0 : SpinValveParams) (q0 : SkyrmionParams) (angles Es : List ℝ) :
    (angleSweep tf p0 angles
      = angles.map fun a => tf (SpinValveParams.mk p0.Exc p0.E a)) ∧
    (hallSweep hf q0 Es
      = Es.map fun EE => hf (SkyrmionParams.mk q0.L q0.W EE q0.r0 q0.Ex)) ∧
    (∀ angles2, angles.Perm angles2 →
      (angleSweep tf p0 angles).Perm (angleSweep tf p0 angles2)) ∧
    (∀ a : ℝ, angleSweep tf p0 [a] = [tf (SpinValveParams.mk p0.Exc p0.E a)]) := by
  have hmap : ∀ l : List ℝ, angleSweep tf p0 l
      = l.map fun a => tf (SpinValveParams.mk p0.Exc p0.E a) := by
    intro l
    unfold angleSweep
    rw [angleSweep_foldl tf p0 l p0 [] rfl rfl]
    simp
  refine ⟨hmap angles, ?_, ?_, ?_⟩
  · unfold hallSweep
    rw [hallSweep_foldl hf q0 Es q0 [] rfl rfl rfl rfl]
    simp
  · intro angles2 hperm
    rw [hmap angles, hmap angles2]
    exact hperm.map _
  · intro a
    rw [hmap [a]]
    simp

/-- Witness for C8 on a concrete two-point grid and its transposition. -/
theorem sweeps_stateless_witness :
    (angleSweep (fun _ => 0) (SpinValveParams.mk 0 0 0) [0, 1]
      = [0, 1].map fun a => (fun _ => (0 : ℝ)) (SpinValveParams.mk 0 0 a)) ∧
    (angleSweep (fun _ => 0) (SpinValveParams.mk 0 0 0) [0, 1]).Perm
      (angleSweep (fun _ => 0) (SpinValveParams.mk 0 0 0) [1, 0]) :=
  ⟨(sweeps_stateless (fun _ => 0) (fun _ => 0) (SpinValveParams.mk 0 0 0)
      (SkyrmionParams.mk 0 0 0 0 0) [0, 1] []).1,
   (sweeps_stateless (fun _ => 0) (fun _ => 0) (SpinValveParams.mk 0 0 0)
      (SkyrmionParams.mk 0 0 0 0 0) [0, 1] []).2.2.1 [1, 0]
      (List.Perm.swap 1 0 [])⟩

/-- Witness for C9 at the origin with a concrete parameter set. -/
theorem hedgehog_total_witness :
    HedgeHogD (0, 0) (SkyrmionParams.mk 1 1 1 1 1)
      = some (HedgeHog (0, 0) (SkyrmionParams.mk 1 1 1 1 1)) ∧
    HedgeHog (0, 0) (SkyrmionParams.mk 1 1 1 1 1)
      = (4 : ℂ) • s_0 + ((1 : ℝ) : ℂ) • s_z :=
  hedgehog_total (0, 0) (SkyrmionParams.mk 1 1 1 1 1) (by norm_num)

/-! ## The angle sweep: periodicity and symmetry (claim C6) -/

theorem sz_conj_s0 : s_z * s_0 * s_z = s_0 := by
  ext i j
  fin_cases i <;> fin_cases j <;>
    simp [s_z, s_0, Matrix.mul_apply, Fin.sum_univ_two]

theorem sz_conj_sz : s_z * s_z * s_z = s_z := by
  ext i j
  fin_cases i <;> fin_cases j <;>
    simp [s_z, Matrix.mul_apply, Fin.sum_univ_two]

theorem sz_conj_sx : s_z * s_x * s_z = -s_x := by
  ext i j
  fin_cases i <;> fin_cases j <;>
    simp [s_z, s_x, Matrix.mul_apply, Fin.sum_univ_two]

theorem onsite_periodic (pos : ℝ × ℝ) (Exc E a : ℝ) :
    onsite pos (SpinValveParams.mk Exc E (a + 2 * Real.pi))
      = onsite pos (SpinValveParams.mk Exc E a) := by
  simp only [onsite]
  split_ifs with h1 h2
  · rfl
  · rw [Real.cos_add_two_pi, Real.sin_add_two_pi]
  · rfl

theorem sz_conj_onsite (pos : ℝ × ℝ) (p : SpinValveParams) :
    s_z * onsite pos p * s_z
      = onsite pos (SpinValveParams.mk p.Exc p.E (2 * Real.pi - p.angle)) := by
  simp only [onsite]
  split_ifs with h1 h2
  · rw [Matrix.mul_add, Matrix.add_mul, Matrix.mul_smul, Matrix.smul_mul,
      Matrix.mul_smul, Matrix.smul_mul, sz_conj_s0, sz_conj_sz]
  · rw [Matrix.mul_add, Matrix.add_mul, Matrix.mul_add, Matrix.add_mul,
      Matrix.mul_smul, Matrix.smul_mul, Matrix.mul_smul, Matrix.smul_mul,
      Matrix.mul_smul, Matrix.smul_mul, sz_conj_s0, sz_conj_sz, sz_conj_sx]
    rw [Real.cos_sub, Real.sin_sub, Real.cos_two_pi, Real.sin_two_pi]
    push_cast
    rw [smul_neg]
    ring_nf
    module
  · rw [Matrix.mul_smul, Matrix.smul_mul, sz_conj_s0]

/-- C6: the angular magnetoresistance trace is periodic in the
magnetization angle with period `2π` — the on-site map, hence the whole
Hamiltonian fed to the evaluator, is unchanged under `a ↦ a + 2π` — and
symmetric about `π`: the system at angle `2π − a` equals the system at
angle `a` conjugated sitewise by the constant unitary `s_z`, so any
gauge-invariant transmission functional takes the same value at the two
angles. -/
theorem angle_trace_periodic_symmetric
    (F : ((ℝ × ℝ) → Matrix (Fin 2) (Fin 2) ℂ) → ℝ)
    (hF : GaugeInvariant F) (Exc E a : ℝ) :
    (∀ pos, onsite pos (SpinValveParams.mk Exc E (a + 2 * Real.pi))
      = onsite pos (SpinValveParams.mk Exc E a)) ∧
    F (onsiteMap Exc E (a + 2 * Real.pi)) = F (onsiteMap Exc E a) ∧
    (∀ pos, s_z * onsite pos (SpinValveParams.mk Exc E a) * s_z
      = onsite pos (SpinValveParams.mk Exc E (2 * Real.pi - a))) ∧
    F (onsiteMap Exc E (2 * Real.pi - a)) = F (onsiteMap Exc E a) := by
  have hper : ∀ pos, onsite pos (SpinValveParams.mk Exc E (a + 2 * Real.pi))
      = onsite pos (SpinValveParams.mk Exc E a) :=
    fun pos => onsite_periodic pos Exc E a
  have hconj : ∀ pos, s_z * onsite pos (SpinValveParams.mk Exc E a) * s_z
      = onsite pos (SpinValveParams.mk Exc E (2 * Real.pi - a)) :=
    fun pos => sz_conj_onsite pos (SpinValveParams.mk Exc E a)
  refine ⟨hper, ?_, hconj, ?_⟩
  · have heq : onsiteMap Exc E (a + 2 * Real.pi) = onsiteMap Exc E a :=
      funext fun pos => hper pos
    rw [heq]
  · exact hF (onsiteMap Exc E a) (onsiteMap Exc E (2 * Real.pi - a))
      fun pos => (hconj pos).symm

/-- Witness for C6 with a concrete gauge-invariant functional. -/
theorem angle_trace_periodic_symmetric_witness :
    (fun _ => (0 : ℝ)) (onsiteMap 0 0 (0 + 2 * Real.pi))
      = (fun _ => (0 : ℝ)) (onsiteMap 0 0 0) ∧
    (fun _ => (0 : ℝ)) (onsiteMap 0 0 (2 * Real.pi - 0))
      = (fun _ => (0 : ℝ)) (onsiteMap 0 0 0) :=
  ⟨(angle_trace_periodic_symmetric (fun _ => 0) (fun _ _ _ => rfl) 0 0 0).2.1,
   (angle_trace_periodic_symmetric (fun _ => 0) (fun _ _ _ => rfl) 0 0 0).2.2.2⟩

/-! ## Vanishing Hall resistance at zero exchange (claim C5) -/

theorem Gmat_mirror (T : Fin 4 → Fin 4 → ℝ) (hT : MirrorSymmetric T) :
    ∀ i j, Gmat T (mirrorPerm i) (mirrorPerm j) = Gmat T i j := by
  intro i j
  by_cases hij : i = j
  · subst hij
    rw [Gmat_diag, Gmat_diag]
    congr 1
    rw [← Equiv.sum_comp mirrorPerm
      (fun k => if k = mirrorPerm i then 0 else T (mirrorPerm i) k)]
    refine Finset.sum_congr rfl fun m _ => ?_
    by_cases hm : m = i
    · simp [hm]
    · have hm2 : mirrorPerm m ≠ mirrorPerm i :=
        fun h => hm (mirrorPerm.injective h)
      simp [hm, hm2, hT i m]
  · have hij2 : mirrorPerm i ≠ mirrorPerm j :=
      fun h => hij (mirrorPerm.injective h)
    rw [Gmat_offdiag T hij2, Gmat_offdiag T hij, hT i j]

theorem castLE_mirror : ∀ i : Fin 3,
    Fin.castLE (by omega : 3 ≤ 4) (mirrorPerm3 i)
      = mirrorPerm (Fin.castLE (by omega : 3 ≤ 4) i) := by decide

theorem G3_mirror (T : Fin 4 → Fin 4 → ℝ) (hT : MirrorSymmetric T) :
    ∀ i j, G3 T (mirrorPerm3 i) (mirrorPerm3 j) = G3 T i j := by
  intro i j
  simp only [G3, Matrix.submatrix_apply]
  rw [castLE_mirror i, castLE_mirror j]
  exact Gmat_mirror T hT _ _

theorem mirror_hall_zero (T : Fin 4 → Fin 4 → ℝ) (hT : MirrorSymmetric T)
    (hdet : IsUnit (G3 T).det) : Hall T = 0 := by
  have hVsol : (G3 T).mulVec (solveV T) = bvec := solveV_solves T hdet
  have hswapswap : ∀ m : Fin 3, mirrorPerm3 (mirrorPerm3 m) = m := by
    intro m
    simp [mirrorPerm3, Equiv.swap_apply_self]
  have hV2 : (G3 T).mulVec (fun i => solveV T (mirrorPerm3 i)) = bvec := by
    funext i
    simp only [Matrix.mulVec, Matrix.dotProduct]
    calc ∑ j, G3 T i j * solveV T (mirrorPerm3 j)
        = ∑ m, G3 T i (mirrorPerm3 m)
            * solveV T (mirrorPerm3 (mirrorPerm3 m)) :=
          (Equiv.sum_comp mirrorPerm3
            (fun j => G3 T i j * solveV T (mirrorPerm3 j))).symm
      _ = ∑ m, G3 T (mirrorPerm3 i) m * solveV T m := by
          refine Finset.sum_congr rfl fun m _ => ?_
          rw [hswapswap m]
          congr 1
          have h := G3_mirror T hT (mirrorPerm3 i) m
          rw [hswapswap i] at h
          exact h
      _ = bvec (mirrorPerm3 i) := by
          have h := congrFun hVsol (mirrorPerm3 i)
          simpa [Matrix.mulVec, Matrix.dotProduct] using h
      _ = bvec i := by
          fin_cases i <;> simp [bvec, mirrorPerm3, Equiv.swap_apply_def]
  have huniq : (fun i => solveV T (mirrorPerm3 i)) = solveV T := by
    have h1 : (G3 T)⁻¹.mulVec
        ((G3 T).mulVec fun i => solveV T (mirrorPerm3 i))
        = (G3 T)⁻¹.mulVec bvec := by rw [hV2]
    rw [Matrix.mulVec_mulVec, Matrix.nonsing_inv_mul _ hdet,
      Matrix.one_mulVec] at h1
    exact h1
  have h12 : solveV T 2 = solveV T 1 := by
    have h2 := congrFun huniq 1
    simp only [mirrorPerm3, Equiv.swap_apply_left] at h2
    exact h2
  rw [Hall, h12, sub_self]

/-- C5: with the skyrmion exchange `Ex = 0`, `HedgeHog` and `Lead_Pot`
both collapse to the spin-independent on-site `4·s_0` at every site,
the cross geometry is mirror symmetric, and for every mirror-symmetric
transmission table with nonsingular reduced conductance matrix the Hall
resistance returned by `Transport` is exactly zero. -/
theorem zero_exchange_hall_vanishes (T : Fin 4 → Fin 4 → ℝ)
    (hT : MirrorSymmetric T) (hdet : IsUnit (G3 T).det)
    (ps : SkyrmionParams) (hEx : ps.Ex = 0) (pos : ℝ × ℝ) :
    HedgeHog pos ps = (4 : ℂ) • s_0 ∧
    Lead_Pot pos ps = (4 : ℂ) • s_0 ∧
    (shape_2DEG ps (pos.1, -pos.2) ↔ shape_2DEG ps pos) ∧
    Hall T = 0 := by
  refine ⟨?_, ?_, ?_, mirror_hall_zero T hT hdet⟩
  · simp only [HedgeHog, hEx]
    push_cast
    simp
  · simp only [Lead_Pot, hEx]
    push_cast
    simp
  · simp [shape_2DEG, abs_neg]

/-- Witness for C5 at a concrete mirror-symmetric transmission table
and a concrete zero-exchange parameter set. -/
theorem zero_exchange_hall_vanishes_witness :
    HedgeHog (0, 0) (SkyrmionParams.mk 1 1 1 1 0) = (4 : ℂ) • s_0 ∧
    Lead_Pot (0, 0) (SkyrmionParams.mk 1 1 1 1 0) = (4 : ℂ) • s_0 ∧
    (shape_2DEG (SkyrmionParams.mk 1 1 1 1 0) ((0 : ℝ), -(0 : ℝ))
      ↔ shape_2DEG (SkyrmionParams.mk 1 1 1 1 0) ((0 : ℝ), (0 : ℝ))) ∧
    Hall (fun _ _ => 1) = 0 :=
  zero_exchange_hall_vanishes (fun _ _ => 1) (fun _ _ => rfl) detGT1_isUnit
    (SkyrmionParams.mk 1 1 1 1 0) rfl (0, 0)

/-! ## Perfect transmission through the uniform wire (claim C4) -/

theorem exp_step (c : ℂ) (x : ℤ) :
    Complex.exp (c * ((x : ℂ) + 1)) + Complex.exp (c * ((x : ℂ) - 1))
      = (Complex.exp c + Complex.exp (-c)) * Complex.exp (c * x) := by
  rw [show c * ((x : ℂ) + 1) = c * x + c from by ring,
    show c * ((x : ℂ) - 1) = c * x + -c from by ring,
    Complex.exp_add, Complex.exp_add]
  ring

theorem two_cos (k : ℝ) :
    Complex.exp (Complex.I * k) + Complex.exp (-(Complex.I * k))
      = 2 * ((Real.cos k : ℝ) : ℂ) := by
  rw [Complex.ofReal_cos, Complex.cos,
    show Complex.I * (k : ℂ) = (k : ℂ) * Complex.I from mul_comm _ _]
  ring_nf

theorem two_sin_I (k : ℝ) :
    Complex.exp (Complex.I * k) - Complex.exp (-(Complex.I * k))
      = 2 * ((Real.sin k : ℝ) : ℂ) * Complex.I := by
  rw [Complex.ofReal_sin, Complex.sin,
    show Complex.I * (k : ℂ) = (k : ℂ) * Complex.I from mul_comm _ _,
    neg_mul]
  linear_combination (Complex.exp ((k : ℂ) * Complex.I)
    - Complex.exp (-((k : ℂ) * Complex.I))) * Complex.I_mul_I

theorem zero_forward (φ : ℤ → ℂ) (c : ℂ)
    (hrec : ∀ x : ℤ, φ (x + 1) = c * φ x - φ (x - 1))
    (h0 : ∀ x : ℤ, x ≤ 0 → φ x = 0) : ∀ x : ℤ, φ x = 0 := by
  have key : ∀ n : ℕ, φ (n : ℤ) = 0 ∧ φ ((n : ℤ) - 1) = 0 := by
    intro n
    induction n with
    | zero => exact ⟨h0 _ (by omega), h0 _ (by omega)⟩
    | succ m ih =>
      constructor
      · have h := hrec (m : ℤ)
        rw [ih.1, ih.2] at h
        have hc : ((m : ℤ) + 1 : ℤ) = ((m + 1 : ℕ) : ℤ) := by push_cast; ring
        rw [hc] at h
        simpa using h
      · have hc : ((m + 1 : ℕ) : ℤ) - 1 = (m : ℤ) := by push_cast; ring
        rw [hc]
        exact ih.1
  intro x
  rcases le_or_lt x 0 with hx | hx
  · exact h0 x hx
  · have hxn : x = (x.toNat : ℤ) := by omega
    rw [hxn]
    exact (key x.toNat).1

theorem exp_band_rec (k : ℝ) (x : ℤ) :
    Complex.exp (Complex.I * k * ((x : ℤ) + 1 : ℤ))
        + Complex.exp (Complex.I * k * ((x : ℤ) - 1 : ℤ))
      = 2 * ((Real.cos k : ℝ) : ℂ) * Complex.exp (Complex.I * k * x) := by
  have h := exp_step (Complex.I * k) x
  rw [two_cos k] at h
  push_cast
  push_cast at h
  exact h

theorem exp_band_rec_neg (k : ℝ) (x : ℤ) :
    Complex.exp (-(Complex.I * k * ((x : ℤ) + 1 : ℤ)))
        + Complex.exp (-(Complex.I * k * ((x : ℤ) - 1 : ℤ)))
      = 2 * ((Real.cos k : ℝ) : ℂ) * Complex.exp (-(Complex.I * k * x)) := by
  have h := exp_step (-(Complex.I * k)) x
  rw [neg_neg, add_comm (Complex.exp (-(Complex.I * k))), two_cos k] at h
  push_cast
  push_cast at h
  rw [show -(Complex.I * (k : ℂ) * ((x : ℂ) + 1))
      = -(Complex.I * k) * ((x : ℂ) + 1) from by ring,
    show -(Complex.I * (k : ℂ) * ((x : ℂ) - 1))
      = -(Complex.I * k) * ((x : ℂ) - 1) from by ring,
    show -(Complex.I * (k : ℂ) * (x : ℂ))
      = -(Complex.I * k) * (x : ℂ) from by ring]
  exact h

theorem uniform_mode_perfect (t k : ℝ) (L : ℤ) (eps : ℤ → ℝ) (r τ : ℂ)
    (ψ : ℤ → ℂ) (ht : t ≠ 0) (hk0 : 0 < k) (hkπ : k < Real.pi)
    (heps : ∀ x, eps x = wire_onsite t)
    (hS : schrodingerEq eps t (bandEnergy t k) ψ)
    (hBC : scatteringBC k L r τ ψ) :
    r = 0 ∧ τ = 1 := by
  obtain ⟨hleft, hright⟩ := hBC
  have ht2 : (t : ℂ) ≠ 0 := by exact_mod_cast ht
  have hrec : ∀ x : ℤ, ψ (x + 1) + ψ (x - 1)
      = 2 * Complex.cos (k : ℂ) * ψ x := by
    intro x
    have h := hS x
    rw [heps x] at h
    simp only [wire_onsite, bandEnergy] at h
    push_cast at h
    have h2 : (t : ℂ) * (ψ (x + 1) + ψ (x - 1))
        = (t : ℂ) * (2 * Complex.cos (k : ℂ) * ψ x) := by
      linear_combination -h
    exact mul_left_cancel₀ ht2 h2
  set φ : ℤ → ℂ := fun x => ψ x - (Complex.exp (Complex.I * k * x)
    + r * Complex.exp (-(Complex.I * k * x))) with hφdef
  have hφrec : ∀ x : ℤ, φ (x + 1)
      = (2 * Complex.cos (k : ℂ)) * φ x - φ (x - 1) := by
    intro x
    have h1 := hrec x
    have h2 := exp_band_rec k x
    have h3 := exp_band_rec_neg k x
    simp only [hφdef]
    push_cast
    push_cast at h2 h3
    linear_combination h1 - h2 - r * h3
  have hφ0 : ∀ x : ℤ, x ≤ 0 → φ x = 0 := by
    intro x hx
    simp only [hφdef]
    rw [hleft x hx]
    ring
  have hφall : ∀ x : ℤ, φ x = 0 :=
    zero_forward φ (2 * Complex.cos (k : ℂ)) hφrec hφ0
  have hψ : ∀ x : ℤ, ψ x = Complex.exp (Complex.I * k * x)
      + r * Complex.exp (-(Complex.I * k * x)) := by
    intro x
    have h := hφall x
    simp only [hφdef] at h
    exact sub_eq_zero.mp h
  have q1 : Complex.exp (Complex.I * k * L)
      + r * Complex.exp (-(Complex.I * k * L))
      = τ * Complex.exp (Complex.I * k * L) :=
    (hψ L).symm.trans (hright L le_rfl)
  have q2 : Complex.exp (Complex.I * k * ((L : ℤ) + 1 : ℤ))
      + r * Complex.exp (-(Complex.I * k * ((L : ℤ) + 1 : ℤ)))
      = τ * Complex.exp (Complex.I * k * ((L : ℤ) + 1 : ℤ)) :=
    (hψ (L + 1)).symm.trans (hright (L + 1) (by omega))
  have hsplitp : Complex.exp (Complex.I * k * ((L : ℤ) + 1 : ℤ))
      = Complex.exp (Complex.I * k * L) * Complex.exp (Complex.I * k) := by
    rw [← Complex.exp_add]
    congr 1
    push_cast
    ring
  have hsplitm : Complex.exp (-(Complex.I * k * ((L : ℤ) + 1 : ℤ)))
      = Complex.exp (-(Complex.I * k * L))
        * Complex.exp (-(Complex.I * k)) := by
    rw [← Complex.exp_add]
    congr 1
    push_cast
    ring
  rw [hsplitp, hsplitm] at q2
  have hA : Complex.exp (Complex.I * k * L) ≠ 0 := Complex.exp_ne_zero _
  have hB : Complex.exp (-(Complex.I * k * L)) ≠ 0 := Complex.exp_ne_zero _
  have hsk : ((Real.sin k : ℝ) : ℂ) ≠ 0 := by
    have hpos := Real.sin_pos_of_pos_of_lt_pi hk0 hkπ
    exact_mod_cast hpos.ne'
  have hcd : Complex.exp (Complex.I * k)
      - Complex.exp (-(Complex.I * k)) ≠ 0 := by
    rw [two_sin_I k]
    intro hc
    rcases mul_eq_zero.mp hc with h | h
    · rcases mul_eq_zero.mp h with h2 | h2
      · exact two_ne_zero h2
      · exact hsk h2
    · exact Complex.I_ne_zero h
  have key : (τ - 1) * Complex.exp (Complex.I * k * L)
      * (Complex.exp (Complex.I * k) - Complex.exp (-(Complex.I * k)))
      = 0 := by
    linear_combination Complex.exp (-(Complex.I * k)) * q1 - q2
  have hτ : τ = 1 := by
    rcases mul_eq_zero.mp key with h | h
    · rcases mul_eq_zero.mp h with h2 | h2
      · exact sub_eq_zero.mp h2
      · exact absurd h2 hA
    · exact absurd h hcd
  refine ⟨?_, hτ⟩
  rw [hτ] at q1
  have hr : r * Complex.exp (-(Complex.I * k * L)) = 0 := by
    linear_combination q1
  rcases mul_eq_zero.mp hr with h | h
  · exact h
  · exact absurd h hB

theorem planeWave_schrodinger (t k : ℝ) :
    schrodingerEq (fun _ => wire_onsite t) t (bandEnergy t k) (planeWave k) := by
  intro x
  have h2 := exp_band_rec k x
  simp only [planeWave, wire_onsite, bandEnergy]
  push_cast
  push_cast at h2
  linear_combination (-(t : ℂ)) * h2

theorem planeWave_scatteringBC (k : ℝ) (L : ℤ) :
    scatteringBC k L 0 1 (planeWave k) := by
  constructor
  · intro x _
    simp [planeWave]
  · intro x _
    simp [planeWave]

/-- C4: the wire built by `make_wire` assigns its scattering region
exactly the on-site `4t` and hopping `-t` of the leads built by
`make_lead_x`; consequently, for every open mode (any momentum
`k ∈ (0, π)`), the scattering solution of the effective uniform chain
is unique with reflection amplitude `0` and transmission amplitude `1`,
so each open channel transmits perfectly and the total transmission
`transmission(1,0)` equals the number of open propagating channels — a
step function of energy — while the reflection vanishes. -/
theorem uniform_wire_perfect_transmission :
    (∀ t : ℝ, wire_onsite t = lead_onsite t ∧ wire_hop t = lead_hop t) ∧
    (∀ (t k : ℝ) (L : ℤ) (eps : ℤ → ℝ) (r τ : ℂ) (ψ : ℤ → ℂ),
      t ≠ 0 → 0 < k → k < Real.pi →
      (∀ x, eps x = wire_onsite t) →
      schrodingerEq eps t (bandEnergy t k) ψ →
      scatteringBC k L r τ ψ →
      r = 0 ∧ τ = 1) ∧
    (∀ (Wn : ℕ) (t E : ℝ),
      totalTransmission Wn t E (fun _ => 1) = openChannels Wn t E) := by
  refine ⟨fun t => ⟨rfl, rfl⟩, ?_, ?_⟩
  · intro t k L eps r τ ψ ht hk0 hkπ heps hS hBC
    exact uniform_mode_perfect t k L eps r τ ψ ht hk0 hkπ heps hS hBC
  · intro Wn t E
    simp [totalTransmission, openChannels]

/-- Witness for C4: the plane wave at `k = π/2` is the scattering state
of the uniform wire at `t = 1`, with zero reflection and unit
transmission. -/
theorem uniform_wire_perfect_transmission_witness :
    ((0 : ℂ) = 0 ∧ (1 : ℂ) = 1) ∧
    wire_onsite 1 = lead_onsite 1 ∧
    totalTransmission 10 1 2 (fun _ => 1) = openChannels 10 1 2 := by
  have hk0 : (0 : ℝ) < Real.pi / 2 := by
    have := Real.pi_pos
    linarith
  have hkπ : Real.pi / 2 < Real.pi := by
    have := Real.pi_pos
    linarith
  exact ⟨uniform_wire_perfect_transmission.2.1 1 (Real.pi / 2) 30
      (fun _ => wire_onsite 1) 0 1 (planeWave (Real.pi / 2)) (by norm_num)
      hk0 hkπ (fun _ => rfl) (planeWave_schrodinger 1 (Real.pi / 2))
      (planeWave_scatteringBC (Real.pi / 2) 30),
    (uniform_wire_perfect_transmission.1 1).1,
    uniform_wire_perfect_transmission.2.2 10 1 2⟩
